import Mathlib

/-
Verification of the retrieval/matching core of the Thoughtful AI support
agent (src/app.py), as a shallow embedding in Lean.

Modelling conventions:
* Python strings are `List Char` (`Str`); `str.lower()` is per-character
  ASCII lowering (`pyLower`), `str.strip()` strips ASCII whitespace
  (`pyStrip`).  The claims under verification do not depend on Unicode
  case or exotic whitespace behaviour.
* Python floats are modelled as exact rationals (`ℚ`); `0.15`, `0.5`,
  `0.3` become `15/100`, `1/2`, `3/10`.  The claims under verification
  concern bounds and comparisons that are insensitive to binary rounding.
* `difflib.SequenceMatcher(None, a, b).ratio()` from the Python standard
  library (the only external algorithmic dependency of
  `_calculate_similarity`) is embedded in full in namespace `Difflib`,
  including the autojunk "popular element" heuristic and the four
  extension passes of `find_longest_match`.  Since the matcher is
  constructed with `isjunk=None`, the junk set `bjunk` is always empty
  (`isBJunk` below is constantly `false`).
-/

abbrev Str := List Char

/-- Python `str.lower()` (ASCII case folding, as used by the agent). -/
def pyLower (s : Str) : Str := s.map Char.toLower

/-- Python `str.strip()` on ASCII whitespace. -/
def pyIsSpace (c : Char) : Bool :=
  c = ' ' || c = '\t' || c = '\n' || c = '\x0d' || c = '\x0b' || c = '\x0c'

def pyStrip (s : Str) : Str :=
  ((s.dropWhile pyIsSpace).reverse.dropWhile pyIsSpace).reverse

namespace Difflib

/-- The autojunk heuristic of `SequenceMatcher.__chain_b`: when
`len(b) >= 200`, elements occurring more than `len(b) // 100 + 1` times
are "popular" and are purged from the `b2j` index. -/
def isPopular (b : Str) (c : Char) : Bool :=
  decide (200 ≤ b.length) && decide (b.length / 100 + 1 < b.count c)

/-- `b2j[c]`: the ascending list of indices of `c` in `b`; empty for
popular elements (with `isjunk=None` there is no other junk). -/
def b2j (b : Str) (c : Char) : List Nat :=
  if isPopular b c then []
  else (List.range b.length).filter (fun j => b.getD j ' ' == c)

/-- The matcher is built with `isjunk=None`, so `self.bjunk` is empty. -/
def isBJunk (_ : Char) : Bool := false

/-- State of the dynamic-programming loop of `find_longest_match`:
`j2len` is the current row's table (total function, absent keys are 0),
and `(besti, bestj, bestsize)` the best block seen so far. -/
structure DPState where
  j2len : Nat → Nat
  besti : Nat
  bestj : Nat
  bestsize : Nat

/-- One step of the inner loop of `find_longest_match`
(`k = newj2len[j] = j2len.get(j-1, 0) + 1`, update best if strictly
longer).  `j2old` is the previous row's table. -/
def innerStep (i : Nat) (j2old : Nat → Nat) (st : DPState) (j : Nat) : DPState :=
  let k := (if j = 0 then 0 else j2old (j - 1)) + 1
  let st' : DPState :=
    { st with j2len := fun x => if x = j then k else st.j2len x }
  if st'.bestsize < k then
    { st' with besti := i + 1 - k, bestj := j + 1 - k, bestsize := k }
  else st'

/-- One iteration of the outer loop of `find_longest_match` (row `i`).
The `continue`/`break` on an ascending index list amount to filtering
`blo ≤ j < bhi`; `newj2len` starts empty. -/
def rowStep (a b : Str) (blo bhi : Nat) (st : DPState) (i : Nat) : DPState :=
  let js := (b2j b (a.getD i ' ')).filter (fun j => decide (blo ≤ j) && decide (j < bhi))
  js.foldl (innerStep i st.j2len) { st with j2len := fun _ => 0 }

/-- The dynamic-programming part of `find_longest_match` (before the
extension passes): returns `(besti, bestj, bestsize)`. -/
def dpBest (a b : Str) (alo ahi blo bhi : Nat) : Nat × Nat × Nat :=
  let st := (List.range' alo (ahi - alo)).foldl (rowStep a b blo bhi)
    ⟨fun _ => 0, alo, blo, 0⟩
  (st.besti, st.bestj, st.bestsize)

/-- Backward extension pass of `find_longest_match`:
`while besti > alo and bestj > blo and junkTest(b[bestj-1]) and a[besti-1] == b[bestj-1]`,
written by structural recursion on `besti` (at `besti = 0` the guard
`alo < besti` is false, so the loop exits unchanged).  The non-junk
passes use `junkTest = not isbjunk`, the junk passes `junkTest = isbjunk`. -/
def extendBack (a b : Str) (alo blo : Nat) (junkTest : Char → Bool) :
    Nat → Nat → Nat → Nat × Nat × Nat
  | 0, bestj, bestsize => (0, bestj, bestsize)
  | besti+1, bestj, bestsize =>
    if alo < besti + 1 ∧ blo < bestj ∧ junkTest (b.getD (bestj - 1) ' ') = true ∧
        a.getD (besti + 1 - 1) ' ' = b.getD (bestj - 1) ' ' then
      extendBack a b alo blo junkTest besti (bestj - 1) (bestsize + 1)
    else (besti + 1, bestj, bestsize)

/-- Forward extension pass of `find_longest_match`:
`while besti+bestsize < ahi and bestj+bestsize < bhi and junkTest(b[bestj+bestsize]) and a[besti+bestsize] == b[bestj+bestsize]`.
`extendFwdAux` runs the loop with `fuel` counting the remaining room
`ahi - (besti + bestsize)`; when the fuel is 0 the first guard conjunct
is already false, so stopping there is the loop's own exit. -/
def extendFwdAux (a b : Str) (ahi bhi : Nat) (junkTest : Char → Bool)
    (besti bestj : Nat) : Nat → Nat → Nat
  | 0, bestsize => bestsize
  | fuel+1, bestsize =>
    if besti + bestsize < ahi ∧ bestj + bestsize < bhi ∧
        junkTest (b.getD (bestj + bestsize) ' ') = true ∧
        a.getD (besti + bestsize) ' ' = b.getD (bestj + bestsize) ' ' then
      extendFwdAux a b ahi bhi junkTest besti bestj fuel (bestsize + 1)
    else bestsize

def extendFwd (a b : Str) (ahi bhi : Nat) (junkTest : Char → Bool)
    (besti bestj bestsize : Nat) : Nat :=
  extendFwdAux a b ahi bhi junkTest besti bestj (ahi - (besti + bestsize)) bestsize

/-- `SequenceMatcher.find_longest_match` (with `isjunk=None`): the DP
loop, then extension by non-junk elements on both ends, then extension
by junk elements (vacuous here since `bjunk` is empty). -/
def findLongestMatch (a b : Str) (alo ahi blo bhi : Nat) : Nat × Nat × Nat :=
  let d := dpBest a b alo ahi blo bhi
  let e := extendBack a b alo blo (fun c => !(isBJunk c)) d.1 d.2.1 d.2.2
  let k2 := extendFwd a b ahi bhi (fun c => !(isBJunk c)) e.1 e.2.1 e.2.2
  let e3 := extendBack a b alo blo isBJunk e.1 e.2.1 k2
  let k4 := extendFwd a b ahi bhi isBJunk e3.1 e3.2.1 e3.2.2
  (e3.1, e3.2.1, k4)

/-- Bounds invariant for the best block: inside the `a`-window up to
`inext` (the next row to process) and the `b`-window; a best of size 0
is the untouched initial `(alo, blo)`. -/
def BInv (alo blo bhi inext : Nat) (st : DPState) : Prop :=
  (st.bestsize = 0 → st.besti = alo ∧ st.bestj = blo) ∧
  (st.bestsize ≠ 0 →
    alo ≤ st.besti ∧ st.besti + st.bestsize ≤ inext ∧
    blo ≤ st.bestj ∧ st.bestj + st.bestsize ≤ bhi)

/-- Bounds invariant for a `j2len` table: nonzero chains are at most
`bound` long, end inside the `b`-window, and fit after `blo`. -/
def JInv (blo bhi bound : Nat) (t : Nat → Nat) : Prop :=
  ∀ x, t x ≠ 0 → t x ≤ bound ∧ blo + t x ≤ x + 1 ∧ x < bhi

/-- Bounds invariant for an `(i, j, k)` block relative to the windows. -/
def EInv (alo ahi blo bhi : Nat) (r : Nat × Nat × Nat) : Prop :=
  (r.2.2 = 0 → r.1 = alo ∧ r.2.1 = blo) ∧
  (r.2.2 ≠ 0 →
    alo ≤ r.1 ∧ r.1 + r.2.2 ≤ ahi ∧ blo ≤ r.2.1 ∧ r.2.1 + r.2.2 ≤ bhi)

/-- Total number of matched elements found by
`SequenceMatcher.get_matching_blocks` on the given windows: the
queue-based subdivision around each longest match, keeping only the sum
of block sizes (which is all `ratio` uses; the final sort/collapse of
adjacent blocks does not change the sum).  `matchTotalAux` carries fuel
bounding the subdivision depth by the total window size; the fuel never
runs out (`matchTotalAux_eq_matchTotal` below), it only makes the
recursion structural. -/
def matchTotalAux (a b : Str) : Nat → Nat → Nat → Nat → Nat → Nat
  | 0, _, _, _, _ => 0
  | fuel+1, alo, ahi, blo, bhi =>
    match findLongestMatch a b alo ahi blo bhi with
    | (i, j, k) =>
      if k = 0 then 0
      else
        (if alo < i ∧ blo < j then matchTotalAux a b fuel alo i blo j else 0)
        + k +
        (if i + k < ahi ∧ j + k < bhi then matchTotalAux a b fuel (i + k) ahi (j + k) bhi
         else 0)

def matchTotal (a b : Str) (alo ahi blo bhi : Nat) : Nat :=
  matchTotalAux a b ((ahi - alo) + (bhi - blo)) alo ahi blo bhi

/-- `SequenceMatcher.ratio()`: `2 * M / T`, where `M` is the total
matched size and `T` the total length; `1.0` when both strings are
empty (`_calculate_ratio`). -/
def ratioOf (a b : Str) : ℚ :=
  if a.length + b.length = 0 then 1
  else 2 * (matchTotal a b 0 a.length 0 b.length : ℚ) / ((a.length : ℚ) + (b.length : ℚ))

/-- `a[i]` matches `b[j]` in the DP loop of `find_longest_match` run on
`(s, s)` over the full windows: `j` is listed in `b2j[s[i]]`. -/
def matchB (s : Str) (i j : Nat) : Bool :=
  decide (j < s.length) && (s.getD j ' ' == s.getD i ' ') && !(isPopular s (s.getD i ' '))

/-- Value of `j2len[j]` after processing row `i` on `(s, s)`: the length
of the match chain ending at `(i, j)`. -/
def chainDP (s : Str) (i j : Nat) : Nat :=
  if matchB s i j then
    (if h : i = 0 ∨ j = 0 then 0 else chainDP s (i - 1) (j - 1)) + 1
  else 0
termination_by i
decreasing_by omega

/-- The `j2len` table the DP loop carries into row `i` when run on
`(s, s)`. -/
def prevChain (s : Str) (i x : Nat) : Nat :=
  if i = 0 then 0 else chainDP s (i - 1) x

end Difflib

/-- One entry of the knowledge store.  The source reads fields with
`qa.get('question', '')` / `qa.get('answer', '')`, so either field may be
absent; an absent field defaults to the empty string. -/
structure QAEntry where
  question? : Option Str
  answer? : Option Str
deriving DecidableEq

/-- `qa.get('question', '')`. -/
def QAEntry.question (e : QAEntry) : Str := e.question?.getD []

/-- `qa.get('answer', '')`. -/
def QAEntry.answer (e : QAEntry) : Str := e.answer?.getD []

/-- An entry with both fields present, equal to the defaults the
retrieval code reads. -/
def QAEntry.defaulted (e : QAEntry) : QAEntry := ⟨some e.question, some e.answer⟩

/-- Outcome of opening and parsing the knowledge file in `_load_data`. -/
inductive LoadOutcome where
  | ok (questions : List QAEntry)
  | fileNotFound
  | invalidJson

/-- `_load_data`: the `questions` list on success; on `FileNotFoundError`
or `json.JSONDecodeError` an error is shown and the store is empty. -/
def loadData : LoadOutcome → List QAEntry
  | .ok qs => qs
  | .fileNotFound => []
  | .invalidJson => []

/-- Python's substring test `small in big`. -/
def inStr (small big : Str) : Bool :=
  (List.range (big.length + 1)).any (fun i => small.isPrefixOf (big.drop i))

/-- `_calculate_similarity`: `SequenceMatcher(None, text1.lower(), text2.lower()).ratio()`. -/
def calculateSimilarity (text1 text2 : Str) : ℚ :=
  Difflib.ratioOf (pyLower text1) (pyLower text2)

/-- The fixed domain keyword list (duplicated verbatim inside both
retrieval loops in the source). -/
def keywords : List Str :=
  ["eva".toList, "cam".toList, "phil".toList, "eligibility".toList, "claims".toList,
   "payment".toList, "verification".toList, "processing".toList, "posting".toList,
   "agents".toList, "benefits".toList, "thoughtful".toList]

/-- The keyword boost loop: `+0.15` for every keyword contained in both
the lowered user question and the lowered stored question. -/
def keywordBoost (userLower question : Str) : ℚ :=
  keywords.foldl
    (fun acc kw =>
      if inStr kw userLower && inStr kw (pyLower question) then acc + 15/100 else acc)
    0

/-- The combined per-entry score used identically by `_find_best_match`
and `_get_relevant_context`:
`total_score = min(score + keyword_boost, 1.0)`. -/
def combinedScore (userLower question : Str) : ℚ :=
  min (calculateSimilarity userLower question + keywordBoost userLower question) 1

/-- `_find_best_match(user_question, threshold)`. -/
def findBestMatch (qaData : List QAEntry) (userQuestion : Str) (threshold : ℚ) :
    Option Str × ℚ :=
  if qaData = [] then (none, 0)
  else
    let userLower := pyLower userQuestion
    let best := qaData.foldl
      (fun (acc : Option Str × ℚ) qa =>
        let total := combinedScore userLower qa.question
        if acc.2 < total then (some qa.answer, total) else acc)
      ((none : Option Str), (0 : ℚ))
    if threshold ≤ best.2 then (best.1, best.2) else (none, 0)

/-- A scored match kept by `_get_relevant_context`. -/
structure ScoredMatch where
  question : Str
  answer : Str
  score : ℚ
deriving DecidableEq

/-- The matches list built by the loop in `_get_relevant_context`:
every entry scored, keeping those with `total_score > 0.3`, in store
order. -/
def scoredMatches (qaData : List QAEntry) (userQuestion : Str) : List ScoredMatch :=
  let userLower := pyLower userQuestion
  (qaData.map (fun qa =>
      (⟨qa.question, qa.answer, combinedScore userLower qa.question⟩ : ScoredMatch))).filter
    (fun m => decide (3/10 < m.score))

/-- Stable insertion used to model `matches.sort(key=..., reverse=True)`:
an element goes in front of the first element whose score is not larger,
so earlier elements win ties. -/
def insertDesc (m : ScoredMatch) : List ScoredMatch → List ScoredMatch
  | [] => [m]
  | x :: xs => if x.score ≤ m.score then m :: x :: xs else x :: insertDesc m xs

/-- Python's `list.sort` is a stable sort; with `key=score,
reverse=True` its output is the unique stable descending-by-score
reordering, here realised as stable insertion sort. -/
def sortDesc : List ScoredMatch → List ScoredMatch
  | [] => []
  | x :: xs => insertDesc x (sortDesc xs)

/-- The sorted matches of `_get_relevant_context`. -/
def sortedMatches (qaData : List QAEntry) (userQuestion : Str) : List ScoredMatch :=
  sortDesc (scoredMatches qaData userQuestion)

/-- `top_matches = matches[:3]`. -/
def topMatches (qaData : List QAEntry) (userQuestion : Str) : List ScoredMatch :=
  (sortedMatches qaData userQuestion).take 3

/-- One numbered block `"{i}. Q: {question}\n   A: {answer}\n\n"`. -/
def formatEntry (i : Nat) (m : ScoredMatch) : Str :=
  (toString i).toList ++ ". Q: ".toList ++ m.question ++ "\n   A: ".toList ++
    m.answer ++ "\n\n".toList

/-- The context block assembled by `_get_relevant_context`, 1-indexed. -/
def formatContext (top : List ScoredMatch) : Str :=
  top.enum.foldl (fun acc p => acc ++ formatEntry (p.1 + 1) p.2)
    "Here is relevant information from our knowledge base:\n\n".toList

/-- `_get_relevant_context(user_question)`. -/
def getRelevantContext (qaData : List QAEntry) (userQuestion : Str) : Option Str :=
  if qaData = [] then none
  else if topMatches qaData userQuestion = [] then none
  else some (formatContext (topMatches qaData userQuestion))

/-- Outcome of one call to the external generation service (the OpenAI
chat-completion request): generated text, or any raised exception. -/
inductive ServiceOutcome where
  | success (text : Str)
  | failure

/-- The generation service as seen by the agent: a function of the
system message and the user question.  `none` in the agent models
`self.openai_client is None`. -/
def Service : Type := Str → Str → ServiceOutcome

/-- Literal fallback message of `_get_llm_response` when no client is
configured and no knowledge-store answer matches. -/
def noApiKeyMessage : Str :=
  ("I apologize, but I need an OpenAI API key to provide intelligent responses. " ++
   "Please set the OPENAI_API_KEY environment variable.").toList

/-- Literal fallback message of `_get_llm_response` when the service
call raises and no knowledge-store answer matches. -/
def troubleMessage : Str :=
  ("I'm having trouble processing your question right now. " ++
   "Please try asking about Thoughtful AI's agents (EVA, CAM, or PHIL).").toList

/-- Literal no-match message of `_get_fallback_response` when no client
is configured. -/
def noSpecificInfoMessage : Str :=
  ("I apologize, but I don't have specific information about that topic. " ++
   "I'm specialized in answering questions about Thoughtful AI's automation agents " ++
   "(EVA, CAM, and PHIL). Could you please rephrase your question or ask about " ++
   "our agents?").toList

/-- Literal error message of `_get_fallback_response` when the service
call raises. -/
def issueMessage : Str :=
  ("I encountered an issue processing your question. " ++
   "Please try asking about Thoughtful AI's agents (EVA, CAM, or PHIL).").toList

/-- Literal validation message of `get_response` for empty input. -/
def validationMessage : Str :=
  "Please ask me a question about Thoughtful AI's agents!".toList

/-- The system message built by `_get_llm_response`, with the context
block appended when present. -/
def buildSystemMessage (context : Option Str) : Str :=
  let base :=
    ("You are a helpful customer support AI agent for Thoughtful AI, a company that provides " ++
     "AI-powered automation agents for healthcare processes. " ++
     "Your role is to assist users with questions about Thoughtful AI's products and services. " ++
     "Be friendly, professional, and concise in your responses.").toList
  match context with
  | none => base
  | some ctx =>
    base ++ "\n\n".toList ++ ctx ++
      ("\nUse the above information to answer questions about Thoughtful AI's agents. " ++
       "If the question is about our agents (EVA, CAM, PHIL), use the provided information. " ++
       "For other questions, provide helpful general responses.").toList

/-- `_get_llm_response(user_question, context)`.  With no client it
falls back to `_find_best_match(user_question, 0.5)` and returns the
answer only if it is truthy (Python `if answer:` — `None` and the empty
string both fail); on a service exception the same fallback runs with
the other literal message. -/
def getLlmResponse (client : Option Service) (qaData : List QAEntry)
    (userQuestion : Str) (context : Option Str) : Str :=
  match client with
  | none =>
    match findBestMatch qaData userQuestion (1/2) with
    | (some answer, _) => if answer = [] then noApiKeyMessage else answer
    | (none, _) => noApiKeyMessage
  | some service =>
    match service (buildSystemMessage context) userQuestion with
    | .success text => text
    | .failure =>
      match findBestMatch qaData userQuestion (1/2) with
      | (some answer, _) => if answer = [] then troubleMessage else answer
      | (none, _) => troubleMessage

/-- `_get_fallback_response(user_question)` (not reachable from
`get_response`, but part of the module and the source of the third
literal message). -/
def getFallbackResponse (client : Option Service) (userQuestion : Str) : Str :=
  match client with
  | none => noSpecificInfoMessage
  | some service =>
    match service ("You are a helpful customer support assistant. " ++
        "Provide concise, friendly responses to user questions.").toList userQuestion with
    | .success text => text
    | .failure => issueMessage

/-- The result dictionary of `get_response`. -/
structure ResponseResult where
  answer : Str
  source : Str
  confidence : ℚ
deriving DecidableEq

/-- `get_response(user_question)`: validation, context retrieval,
generation (with fallbacks), provenance classification. -/
def getResponse (client : Option Service) (qaData : List QAEntry)
    (userQuestion : Str) : ResponseResult :=
  if userQuestion = [] ∨ pyStrip userQuestion = [] then
    ⟨validationMessage, "validation".toList, 0⟩
  else
    let context := getRelevantContext qaData userQuestion
    let isAboutAgents := context.isSome
    let answer := getLlmResponse client qaData userQuestion context
    ⟨answer,
     if isAboutAgents then "ai_agent".toList else "ai_general".toList,
     if isAboutAgents then 1 else 1/2⟩

/-- Specification of `_find_best_match` as the spec states it: compute
the combined score of every entry, take the single maximum, tie-break by
first entry encountered (an entry replaces the best only when strictly
greater), return the best answer with its score iff the maximum reaches
the threshold, `(none, 0)` otherwise. -/
def findBestMatchSpec (qaData : List QAEntry) (userQuestion : Str) (threshold : ℚ) :
    Option Str × ℚ :=
  let lq := pyLower userQuestion
  let m := (qaData.map (fun qa => combinedScore lq qa.question)).foldl max 0
  if threshold ≤ m then
    ((qaData.find? (fun qa => decide (combinedScore lq qa.question = m))).map QAEntry.answer, m)
  else (none, 0)

/-- Knowledge store used by the concrete witnesses below. -/
def demoStore : List QAEntry := [⟨some "eva".toList, some "eva answer".toList⟩]

/-- Store whose only entry has an empty answer string (counterexample
store for the composer claim). -/
def emptyAnswerStore : List QAEntry := [⟨some "eva".toList, some []⟩]

namespace Difflib

theorem BInv_mono {alo blo bhi n m : Nat} {st : DPState} (hnm : n ≤ m)
    (h : BInv alo blo bhi n st) : BInv alo blo bhi m st := by
  obtain ⟨h0, h1⟩ := h
  refine ⟨h0, fun hs => ?_⟩
  have := h1 hs
  omega

theorem BInv_mk (alo blo bhi inext : Nat) (t : Nat → Nat) (bi bj bs : Nat)
    (h0 : bs = 0 → bi = alo ∧ bj = blo)
    (h1 : bs ≠ 0 → alo ≤ bi ∧ bi + bs ≤ inext ∧ blo ≤ bj ∧ bj + bs ≤ bhi) :
    BInv alo blo bhi inext ⟨t, bi, bj, bs⟩ := ⟨h0, h1⟩

theorem innerStep_bounds (i j alo blo bhi : Nat) (hai : alo ≤ i)
    (hjb : blo ≤ j) (hjh : j < bhi)
    (j2old : Nat → Nat) (hold : JInv blo bhi (i - alo) j2old)
    (st : DPState) (hB : BInv alo blo bhi (i + 1) st)
    (hJ : JInv blo bhi (i + 1 - alo) st.j2len) :
    BInv alo blo bhi (i + 1) (innerStep i j2old st j) ∧
    JInv blo bhi (i + 1 - alo) (innerStep i j2old st j).j2len := by
  obtain ⟨hB0, hB1⟩ := hB
  unfold innerStep
  dsimp only
  set kk := (if j = 0 then 0 else j2old (j - 1)) + 1 with hkk
  have hkpos : 0 < kk := by omega
  have hk1 : kk ≤ i + 1 - alo := by
    rw [hkk]
    by_cases hj0 : j = 0
    · simp only [hj0, if_pos]; omega
    · simp only [hj0, if_false]
      by_cases hz : j2old (j - 1) = 0
      · rw [hz]; omega
      · have := hold (j - 1) hz
        omega
  have hk2 : blo + kk ≤ j + 1 := by
    rw [hkk]
    by_cases hj0 : j = 0
    · simp only [hj0, if_pos]; omega
    · simp only [hj0, if_false]
      by_cases hz : j2old (j - 1) = 0
      · rw [hz]; omega
      · have := hold (j - 1) hz
        omega
  have hJ' : JInv blo bhi (i + 1 - alo)
      (fun x => if x = j then kk else st.j2len x) := by
    intro x hx
    by_cases hxj : x = j
    · subst hxj
      simp only [if_pos rfl] at hx ⊢
      exact ⟨hk1, hk2, hjh⟩
    · simp only [if_neg hxj] at hx ⊢
      exact hJ x hx
  by_cases hlt : st.bestsize < kk
  · rw [if_pos hlt]
    refine ⟨BInv_mk alo blo bhi (i + 1) _ _ _ _ (fun hs => absurd hs (by omega))
      (fun _ => ⟨by omega, by omega, by omega, by omega⟩), hJ'⟩
  · rw [if_neg hlt]
    exact ⟨⟨hB0, hB1⟩, hJ'⟩

theorem innerFold_bounds (i alo blo bhi : Nat) (hai : alo ≤ i)
    (j2old : Nat → Nat) (hold : JInv blo bhi (i - alo) j2old) :
    ∀ (L : List Nat), (∀ j ∈ L, blo ≤ j ∧ j < bhi) →
    ∀ (st : DPState), BInv alo blo bhi (i + 1) st →
      JInv blo bhi (i + 1 - alo) st.j2len →
      BInv alo blo bhi (i + 1) (L.foldl (innerStep i j2old) st) ∧
      JInv blo bhi (i + 1 - alo) (L.foldl (innerStep i j2old) st).j2len := by
  intro L
  induction L with
  | nil => intro _ st hB hJ; exact ⟨hB, hJ⟩
  | cons j L ih =>
    intro hL st hB hJ
    have hj : blo ≤ j ∧ j < bhi := hL j (List.mem_cons_self j L)
    have hL' : ∀ x ∈ L, blo ≤ x ∧ x < bhi :=
      fun x hx => hL x (List.mem_cons_of_mem j hx)
    simp only [List.foldl_cons]
    obtain ⟨hB', hJ'⟩ := innerStep_bounds i j alo blo bhi hai hj.1 hj.2 j2old hold st
      ⟨hB.1, hB.2⟩ hJ
    exact ih hL' _ hB' hJ'

theorem rowFold_bounds (a b : Str) (alo blo bhi : Nat) :
    ∀ m : Nat,
      BInv alo blo bhi (alo + m)
        ((List.range' alo m).foldl (rowStep a b blo bhi) ⟨fun _ => 0, alo, blo, 0⟩) ∧
      JInv blo bhi m
        ((List.range' alo m).foldl (rowStep a b blo bhi) ⟨fun _ => 0, alo, blo, 0⟩).j2len := by
  intro m
  induction m with
  | zero =>
    constructor
    · exact ⟨fun _ => ⟨rfl, rfl⟩, fun hs => absurd rfl hs⟩
    · intro x hx; exact absurd rfl hx
  | succ m ih =>
    rw [List.range'_concat, List.foldl_append, List.foldl_cons, List.foldl_nil]
    simp only [one_mul]
    set st := (List.range' alo m).foldl (rowStep a b blo bhi) ⟨fun _ => 0, alo, blo, 0⟩ with hst
    obtain ⟨ihB, ihJ⟩ := ih
    unfold rowStep
    simp only
    have hfilter : ∀ j ∈ (b2j b (a.getD (alo + m) ' ')).filter
        (fun j => decide (blo ≤ j) && decide (j < bhi)), blo ≤ j ∧ j < bhi := by
      intro j hj
      have := List.of_mem_filter hj
      simp only [Bool.and_eq_true, decide_eq_true_eq] at this
      exact this
    have h := innerFold_bounds (alo + m) alo blo bhi (by omega) st.j2len
      (by simpa using ihJ) _ hfilter { st with j2len := fun _ => 0 }
      (BInv_mono (Nat.le_succ _) ihB)
      (by intro x hx; exact absurd rfl hx)
    rw [show alo + m + 1 - alo = m + 1 by omega] at h
    rw [show alo + m + 1 = alo + (m + 1) by omega] at h
    exact h

theorem dpBest_bounds (a b : Str) (alo ahi blo bhi : Nat) :
    ((dpBest a b alo ahi blo bhi).2.2 = 0 →
      (dpBest a b alo ahi blo bhi).1 = alo ∧ (dpBest a b alo ahi blo bhi).2.1 = blo) ∧
    ((dpBest a b alo ahi blo bhi).2.2 ≠ 0 →
      alo ≤ (dpBest a b alo ahi blo bhi).1 ∧
      (dpBest a b alo ahi blo bhi).1 + (dpBest a b alo ahi blo bhi).2.2 ≤ ahi ∧
      blo ≤ (dpBest a b alo ahi blo bhi).2.1 ∧
      (dpBest a b alo ahi blo bhi).2.1 + (dpBest a b alo ahi blo bhi).2.2 ≤ bhi) := by
  obtain ⟨hB, _⟩ := rowFold_bounds a b alo blo bhi (ahi - alo)
  unfold dpBest
  simp only
  obtain ⟨h0, h1⟩ := hB
  constructor
  · intro hs; exact h0 hs
  · intro hs
    have := h1 hs
    by_cases hcase : alo ≤ ahi
    · omega
    · -- empty row range: the fold is the initial state, bestsize = 0
      have : ahi - alo = 0 := by omega
      rw [this] at hs h0
      simp only [List.range'_zero, List.foldl_nil] at hs h0
      exact absurd rfl hs

theorem EInv_mk (alo ahi blo bhi bi bj bs : Nat)
    (h0 : bs = 0 → bi = alo ∧ bj = blo)
    (h1 : bs ≠ 0 → alo ≤ bi ∧ bi + bs ≤ ahi ∧ blo ≤ bj ∧ bj + bs ≤ bhi) :
    EInv alo ahi blo bhi (bi, bj, bs) := ⟨h0, h1⟩

theorem extendBack_bounds (a b : Str) (alo ahi blo bhi : Nat) (junkTest : Char → Bool) :
    ∀ bi bj bs, (bs = 0 → bi = alo ∧ bj = blo) →
      (bs ≠ 0 → alo ≤ bi ∧ bi + bs ≤ ahi ∧ blo ≤ bj ∧ bj + bs ≤ bhi) →
      EInv alo ahi blo bhi (extendBack a b alo blo junkTest bi bj bs) := by
  intro bi
  induction bi with
  | zero =>
    intro bj bs h0 h1
    exact EInv_mk alo ahi blo bhi 0 bj bs h0 h1
  | succ bi ih =>
    intro bj bs h0 h1
    simp only [extendBack]
    split
    · rename_i hg
      obtain ⟨hg1, hg2, -, -⟩ := hg
      refine ih (bj - 1) (bs + 1)
        (fun hs => absurd hs (by omega)) (fun _ => ?_)
      by_cases hbs : bs = 0
      · obtain ⟨he1, he2⟩ := h0 hbs
        omega
      · have := h1 hbs
        omega
    · exact EInv_mk alo ahi blo bhi (bi + 1) bj bs h0 h1

theorem extendFwdAux_bounds (a b : Str) (alo ahi blo bhi : Nat) (junkTest : Char → Bool)
    (bi bj : Nat) :
    ∀ (fuel : Nat) (bs : Nat),
      (bs = 0 → bi = alo ∧ bj = blo) →
      (bs ≠ 0 → alo ≤ bi ∧ bi + bs ≤ ahi ∧ blo ≤ bj ∧ bj + bs ≤ bhi) →
      EInv alo ahi blo bhi (bi, bj, extendFwdAux a b ahi bhi junkTest bi bj fuel bs) := by
  intro fuel
  induction fuel with
  | zero =>
    intro bs h0 h1
    exact EInv_mk alo ahi blo bhi bi bj bs h0 h1
  | succ fuel ihn =>
    intro bs h0 h1
    simp only [extendFwdAux]
    split
    · rename_i hg
      obtain ⟨hg1, hg2, -, -⟩ := hg
      refine ihn (bs + 1)
        (fun hs => absurd hs (by omega)) (fun _ => ?_)
      by_cases hbs : bs = 0
      · obtain ⟨he1, he2⟩ := h0 hbs
        omega
      · have := h1 hbs
        omega
    · exact EInv_mk alo ahi blo bhi bi bj bs h0 h1

theorem extendFwd_bounds (a b : Str) (alo ahi blo bhi : Nat) (junkTest : Char → Bool)
    (bi bj bs : Nat)
    (h0 : bs = 0 → bi = alo ∧ bj = blo)
    (h1 : bs ≠ 0 → alo ≤ bi ∧ bi + bs ≤ ahi ∧ blo ≤ bj ∧ bj + bs ≤ bhi) :
    EInv alo ahi blo bhi (bi, bj, extendFwd a b ahi bhi junkTest bi bj bs) :=
  extendFwdAux_bounds a b alo ahi blo bhi junkTest bi bj (ahi - (bi + bs)) bs h0 h1

theorem extendBack_isBJunk (a b : Str) (alo blo : Nat) :
    ∀ bi bj bs, extendBack a b alo blo isBJunk bi bj bs = (bi, bj, bs) := by
  intro bi bj bs
  cases bi with
  | zero => rfl
  | succ bi => simp [extendBack, isBJunk]

theorem extendFwdAux_isBJunk (a b : Str) (ahi bhi : Nat) (bi bj : Nat) :
    ∀ fuel bs, extendFwdAux a b ahi bhi isBJunk bi bj fuel bs = bs := by
  intro fuel bs
  cases fuel with
  | zero => rfl
  | succ fuel => simp [extendFwdAux, isBJunk]

theorem extendFwd_isBJunk (a b : Str) (ahi bhi bi bj bs : Nat) :
    extendFwd a b ahi bhi isBJunk bi bj bs = bs :=
  extendFwdAux_isBJunk a b ahi bhi bi bj _ bs

/-- With `isjunk=None` the two junk extension passes never fire, so the
result of `find_longest_match` is the block after the non-junk passes. -/
theorem findLongestMatch_eq (a b : Str) (alo ahi blo bhi : Nat) :
    findLongestMatch a b alo ahi blo bhi =
      ((extendBack a b alo blo (fun c => !(isBJunk c)) (dpBest a b alo ahi blo bhi).1
          (dpBest a b alo ahi blo bhi).2.1 (dpBest a b alo ahi blo bhi).2.2).1,
       (extendBack a b alo blo (fun c => !(isBJunk c)) (dpBest a b alo ahi blo bhi).1
          (dpBest a b alo ahi blo bhi).2.1 (dpBest a b alo ahi blo bhi).2.2).2.1,
       extendFwd a b ahi bhi (fun c => !(isBJunk c))
         (extendBack a b alo blo (fun c => !(isBJunk c)) (dpBest a b alo ahi blo bhi).1
            (dpBest a b alo ahi blo bhi).2.1 (dpBest a b alo ahi blo bhi).2.2).1
         (extendBack a b alo blo (fun c => !(isBJunk c)) (dpBest a b alo ahi blo bhi).1
            (dpBest a b alo ahi blo bhi).2.1 (dpBest a b alo ahi blo bhi).2.2).2.1
         (extendBack a b alo blo (fun c => !(isBJunk c)) (dpBest a b alo ahi blo bhi).1
            (dpBest a b alo ahi blo bhi).2.1 (dpBest a b alo ahi blo bhi).2.2).2.2) := by
  unfold findLongestMatch
  dsimp only
  rw [extendBack_isBJunk]
  rw [extendFwd_isBJunk]

theorem flm_bounds (a b : Str) (alo ahi blo bhi : Nat) :
    EInv alo ahi blo bhi (findLongestMatch a b alo ahi blo bhi) := by
  rw [findLongestMatch_eq]
  obtain ⟨hd0, hd1⟩ := dpBest_bounds a b alo ahi blo bhi
  have hback := extendBack_bounds a b alo ahi blo bhi (fun c => !(isBJunk c))
    (dpBest a b alo ahi blo bhi).1 (dpBest a b alo ahi blo bhi).2.1
    (dpBest a b alo ahi blo bhi).2.2 hd0 hd1
  obtain ⟨hb0, hb1⟩ := hback
  exact extendFwd_bounds a b alo ahi blo bhi (fun c => !(isBJunk c)) _ _ _ hb0 hb1

/-- On an empty window `find_longest_match` finds nothing. -/
theorem flm_zero_of_empty (a b : Str) (alo ahi blo bhi : Nat)
    (h : (ahi - alo) + (bhi - blo) = 0) :
    (findLongestMatch a b alo ahi blo bhi).2.2 = 0 := by
  by_contra hk
  have hb := (flm_bounds a b alo ahi blo bhi).2 hk
  omega

theorem matchTotalAux_eq_matchTotal (a b : Str) :
    ∀ (fuel alo ahi blo bhi : Nat), (ahi - alo) + (bhi - blo) ≤ fuel →
      matchTotalAux a b fuel alo ahi blo bhi = matchTotal a b alo ahi blo bhi := by
  have main : ∀ (fuel₁ : Nat), ∀ (fuel₂ alo ahi blo bhi : Nat),
      (ahi - alo) + (bhi - blo) ≤ fuel₁ → (ahi - alo) + (bhi - blo) ≤ fuel₂ →
      matchTotalAux a b fuel₁ alo ahi blo bhi = matchTotalAux a b fuel₂ alo ahi blo bhi := by
    intro fuel₁
    induction fuel₁ with
    | zero =>
      intro fuel₂ alo ahi blo bhi h1 h2
      have hz : (ahi - alo) + (bhi - blo) = 0 := by omega
      have hk := flm_zero_of_empty a b alo ahi blo bhi hz
      cases fuel₂ with
      | zero => rfl
      | succ fuel₂ =>
        show 0 = matchTotalAux a b (fuel₂ + 1) alo ahi blo bhi
        simp only [matchTotalAux]
        rw [if_pos hk]
    | succ fuel₁ ih =>
      intro fuel₂ alo ahi blo bhi h1 h2
      cases fuel₂ with
      | zero =>
        have hz : (ahi - alo) + (bhi - blo) = 0 := by omega
        have hk := flm_zero_of_empty a b alo ahi blo bhi hz
        show matchTotalAux a b (fuel₁ + 1) alo ahi blo bhi = 0
        simp only [matchTotalAux]
        rw [if_pos hk]
      | succ fuel₂ =>
        simp only [matchTotalAux]
        rcases hF : findLongestMatch a b alo ahi blo bhi with ⟨i, j, k⟩
        have hb := flm_bounds a b alo ahi blo bhi
        rw [hF] at hb
        obtain ⟨-, hb2⟩ := hb
        simp only at hb2
        dsimp only
        by_cases hk : k = 0
        · rw [if_pos hk, if_pos hk]
        · rw [if_neg hk, if_neg hk]
          obtain ⟨hb1, hb2, hb3, hb4⟩ := hb2 hk
          by_cases hL : alo < i ∧ blo < j
          · rw [if_pos hL, if_pos hL, ih fuel₂ _ _ _ _ (by omega) (by omega)]
            by_cases hR : i + k < ahi ∧ j + k < bhi
            · rw [if_pos hR, if_pos hR, ih fuel₂ _ _ _ _ (by omega) (by omega)]
            · rw [if_neg hR, if_neg hR]
          · rw [if_neg hL, if_neg hL]
            by_cases hR : i + k < ahi ∧ j + k < bhi
            · rw [if_pos hR, if_pos hR, ih fuel₂ _ _ _ _ (by omega) (by omega)]
            · rw [if_neg hR, if_neg hR]
  intro fuel alo ahi blo bhi h
  exact main fuel ((ahi - alo) + (bhi - blo)) alo ahi blo bhi h le_rfl

theorem matchTotal_eq (a b : Str) (alo ahi blo bhi i j k : Nat)
    (h : findLongestMatch a b alo ahi blo bhi = (i, j, k)) :
    matchTotal a b alo ahi blo bhi =
      if k = 0 then 0
      else (if alo < i ∧ blo < j then matchTotal a b alo i blo j else 0)
        + k +
        (if i + k < ahi ∧ j + k < bhi then matchTotal a b (i + k) ahi (j + k) bhi else 0) := by
  by_cases hz : (ahi - alo) + (bhi - blo) = 0
  · have hk := flm_zero_of_empty a b alo ahi blo bhi hz
    rw [h] at hk
    simp only at hk
    subst hk
    rw [if_pos rfl]
    show matchTotalAux a b ((ahi - alo) + (bhi - blo)) alo ahi blo bhi = 0
    rw [hz]
    rfl
  · obtain ⟨m, hm⟩ : ∃ m, (ahi - alo) + (bhi - blo) = m + 1 :=
      ⟨(ahi - alo) + (bhi - blo) - 1, by omega⟩
    show matchTotalAux a b ((ahi - alo) + (bhi - blo)) alo ahi blo bhi = _
    rw [hm]
    simp only [matchTotalAux]
    rw [h]
    simp only
    by_cases hk : k = 0
    · rw [if_pos hk, if_pos hk]
    · rw [if_neg hk, if_neg hk]
      have hb := (flm_bounds a b alo ahi blo bhi).2 (by rw [h]; simpa using hk)
      rw [h] at hb
      simp only at hb
      obtain ⟨hb1, hb2, hb3, hb4⟩ := hb
      by_cases hL : alo < i ∧ blo < j
      · rw [if_pos hL, if_pos hL,
          matchTotalAux_eq_matchTotal a b m alo i blo j (by omega)]
        by_cases hR : i + k < ahi ∧ j + k < bhi
        · rw [if_pos hR, if_pos hR,
            matchTotalAux_eq_matchTotal a b m (i + k) ahi (j + k) bhi (by omega)]
        · rw [if_neg hR, if_neg hR]
      · rw [if_neg hL, if_neg hL]
        by_cases hR : i + k < ahi ∧ j + k < bhi
        · rw [if_pos hR, if_pos hR,
            matchTotalAux_eq_matchTotal a b m (i + k) ahi (j + k) bhi (by omega)]
        · rw [if_neg hR, if_neg hR]

theorem chainDP_of_neg {s : Str} {i j : Nat} (h : matchB s i j = false) :
    chainDP s i j = 0 := by
  rw [chainDP, h]
  simp

theorem chainDP_of_pos {s : Str} {i j : Nat} (h : matchB s i j = true) :
    chainDP s i j = (if i = 0 ∨ j = 0 then 0 else chainDP s (i - 1) (j - 1)) + 1 := by
  conv_lhs => rw [chainDP]
  rw [h]
  simp

theorem matchB_diag_right {s : Str} {i j : Nat} (h : matchB s i j = true) :
    matchB s j j = true := by
  unfold matchB at h ⊢
  simp only [Bool.and_eq_true, decide_eq_true_eq, beq_iff_eq, Bool.not_eq_true'] at h ⊢
  obtain ⟨⟨hj, hc⟩, hp⟩ := h
  rw [hc]
  exact ⟨⟨hj, trivial⟩, hp⟩

theorem matchB_diag_left {s : Str} {i j : Nat} (hi : i < s.length)
    (h : matchB s i j = true) : matchB s i i = true := by
  unfold matchB at h ⊢
  simp only [Bool.and_eq_true, decide_eq_true_eq, beq_iff_eq, Bool.not_eq_true'] at h ⊢
  exact ⟨⟨hi, trivial⟩, h.2⟩

/-- A chain ending at `(i, j)` is no longer than the diagonal chain
ending at `(j, j)` (its `b`-side cells are the same). -/
theorem chainDP_le_diag_right (s : Str) : ∀ i j, chainDP s i j ≤ chainDP s j j := by
  intro i
  induction i using Nat.strong_induction_on with
  | _ i ih =>
    intro j
    by_cases hm : matchB s i j
    · have hmt := matchB_diag_right hm
      rw [chainDP_of_pos hm, chainDP_of_pos hmt]
      by_cases h0 : i = 0 ∨ j = 0
      · rw [if_pos h0]
        omega
      · push_neg at h0
        rw [if_neg (by omega), if_neg (by omega)]
        have := ih (i - 1) (by omega) (j - 1)
        omega
    · rw [chainDP_of_neg (by simpa using hm)]
      exact Nat.zero_le _

/-- A chain ending at `(i, j)` is no longer than the diagonal chain
ending at `(i, i)` (its `a`-side cells are the same). -/
theorem chainDP_le_diag_left (s : Str) : ∀ i, i < s.length → ∀ j, chainDP s i j ≤ chainDP s i i := by
  intro i
  induction i using Nat.strong_induction_on with
  | _ i ih =>
    intro hi j
    by_cases hm : matchB s i j
    · have hmt := matchB_diag_left hi hm
      rw [chainDP_of_pos hm, chainDP_of_pos hmt]
      by_cases h0 : i = 0
      · rw [if_pos (Or.inl h0), if_pos (Or.inl h0)]
      · by_cases hj0 : j = 0
        · rw [if_pos (Or.inr hj0)]
          omega
        · rw [if_neg (by omega), if_neg (by omega)]
          have := ih (i - 1) (by omega) (by omega) (j - 1)
          omega
    · rw [chainDP_of_neg (by simpa using hm)]
      exact Nat.zero_le _

theorem chain_step {s : Str} {i j : Nat} (hm : matchB s i j = true) :
    (if j = 0 then 0 else prevChain s i (j - 1)) + 1 = chainDP s i j := by
  rw [chainDP_of_pos hm]
  unfold prevChain
  by_cases hi0 : i = 0
  · simp [hi0]
  · by_cases hj0 : j = 0
    · simp [hi0, hj0]
    · simp [hi0, hj0]

theorem innerStep_pos (i : Nat) (j2old : Nat → Nat) (st : DPState) (j : Nat)
    (h : st.bestsize < (if j = 0 then 0 else j2old (j - 1)) + 1) :
    innerStep i j2old st j =
      ⟨fun x => if x = j then (if j = 0 then 0 else j2old (j - 1)) + 1 else st.j2len x,
       i + 1 - ((if j = 0 then 0 else j2old (j - 1)) + 1),
       j + 1 - ((if j = 0 then 0 else j2old (j - 1)) + 1),
       (if j = 0 then 0 else j2old (j - 1)) + 1⟩ := by
  unfold innerStep
  dsimp only
  rw [if_pos h]

theorem innerStep_neg (i : Nat) (j2old : Nat → Nat) (st : DPState) (j : Nat)
    (h : ¬ st.bestsize < (if j = 0 then 0 else j2old (j - 1)) + 1) :
    innerStep i j2old st j =
      ⟨fun x => if x = j then (if j = 0 then 0 else j2old (j - 1)) + 1 else st.j2len x,
       st.besti, st.bestj, st.bestsize⟩ := by
  unfold innerStep
  dsimp only
  rw [if_neg h]

theorem innerStep_diag (s : Str) (i j : Nat) (hi : i < s.length)
    (hmj : matchB s i j = true) (j2old : Nat → Nat) (st : DPState)
    (hk : (if j = 0 then 0 else j2old (j - 1)) + 1 = chainDP s i j)
    (h1 : st.besti = st.bestj)
    (h2 : ∀ r, r < i → chainDP s r r ≤ st.bestsize)
    (hsafe : j ≠ i → (j < i ∨ chainDP s i i ≤ st.bestsize)) :
    (innerStep i j2old st j).besti = (innerStep i j2old st j).bestj ∧
    (∀ r, r < i → chainDP s r r ≤ (innerStep i j2old st j).bestsize) ∧
    (j = i → chainDP s i i ≤ (innerStep i j2old st j).bestsize) ∧
    (chainDP s i i ≤ st.bestsize → chainDP s i i ≤ (innerStep i j2old st j).bestsize) ∧
    (∀ x, (innerStep i j2old st j).j2len x =
      if x = j then chainDP s i j else st.j2len x) := by
  by_cases hlt : st.bestsize < (if j = 0 then 0 else j2old (j - 1)) + 1
  · have hji : j = i := by
      by_contra hne
      rcases hsafe hne with hj | hle
      · have ha := chainDP_le_diag_right s i j
        have hb := h2 j hj
        omega
      · have ha := chainDP_le_diag_left s i hi j
        omega
    rw [innerStep_pos i j2old st j hlt]
    subst hji
    refine ⟨rfl, ?_, ?_, ?_, ?_⟩
    · intro r hr
      have := h2 r hr
      show chainDP s r r ≤ (if j = 0 then 0 else j2old (j - 1)) + 1
      omega
    · intro _
      show chainDP s j j ≤ (if j = 0 then 0 else j2old (j - 1)) + 1
      omega
    · intro hle
      show chainDP s j j ≤ (if j = 0 then 0 else j2old (j - 1)) + 1
      omega
    · intro x
      show (if x = j then (if j = 0 then 0 else j2old (j - 1)) + 1 else st.j2len x) =
        if x = j then chainDP s j j else st.j2len x
      rw [hk]
  · rw [innerStep_neg i j2old st j hlt]
    refine ⟨h1, h2, ?_, ?_, ?_⟩
    · intro hji
      subst hji
      show chainDP s j j ≤ st.bestsize
      omega
    · intro hle
      exact hle
    · intro x
      show (if x = j then (if j = 0 then 0 else j2old (j - 1)) + 1 else st.j2len x) =
        if x = j then chainDP s i j else st.j2len x
      rw [hk]

theorem innerFold_diag (s : Str) (i : Nat) (hi : i < s.length)
    (j2old : Nat → Nat) (hprev : ∀ x, j2old x = prevChain s i x) :
    ∀ (R : List Nat), R.Pairwise (· < ·) → (∀ j ∈ R, matchB s i j = true) →
    ∀ st : DPState, st.besti = st.bestj →
      (∀ r, r < i → chainDP s r r ≤ st.bestsize) →
      (i ∈ R ∨ chainDP s i i ≤ st.bestsize) →
      (∀ x, st.j2len x = if matchB s i x = true ∧ ¬ x ∈ R then chainDP s i x else 0) →
      ((R.foldl (innerStep i j2old) st).besti = (R.foldl (innerStep i j2old) st).bestj ∧
       (∀ r, r < i → chainDP s r r ≤ (R.foldl (innerStep i j2old) st).bestsize) ∧
       chainDP s i i ≤ (R.foldl (innerStep i j2old) st).bestsize ∧
       (∀ x, (R.foldl (innerStep i j2old) st).j2len x = chainDP s i x)) := by
  intro R
  induction R with
  | nil =>
    intro _ _ st h1 h2 h3 h4
    simp only [List.foldl_nil]
    refine ⟨h1, h2, ?_, ?_⟩
    · rcases h3 with hin | hle
      · exact absurd hin (List.not_mem_nil i)
      · exact hle
    · intro x
      have := h4 x
      by_cases hm : matchB s i x = true
      · simpa [hm] using this
      · rw [this, chainDP_of_neg (by simpa using hm)]
        simp [hm]
  | cons j R ih =>
    intro hpw hmem st h1 h2 h3 h4
    have hmj : matchB s i j = true := hmem j (List.mem_cons_self j R)
    have hpw' : R.Pairwise (· < ·) := hpw.of_cons
    have hjlt : ∀ x ∈ R, j < x := fun x hx => (List.pairwise_cons.mp hpw).1 x hx
    have hmem' : ∀ x ∈ R, matchB s i x = true :=
      fun x hx => hmem x (List.mem_cons_of_mem j hx)
    have hk : (if j = 0 then 0 else j2old (j - 1)) + 1 = chainDP s i j := by
      have : (if j = 0 then 0 else j2old (j - 1)) =
          (if j = 0 then 0 else prevChain s i (j - 1)) := by
        by_cases hj0 : j = 0
        · simp [hj0]
        · simp [hj0, hprev]
      rw [this]
      exact chain_step hmj
    have hsafe : j ≠ i → (j < i ∨ chainDP s i i ≤ st.bestsize) := by
      intro hne
      rcases h3 with hin | hle
      · rcases List.mem_cons.mp hin with hij | hin'
        · exact absurd hij.symm hne
        · exact Or.inl (by have := hjlt i hin'; omega)
      · exact Or.inr hle
    obtain ⟨s1, s2, s3, s4, s5⟩ := innerStep_diag s i j hi hmj j2old st hk h1 h2 hsafe
    simp only [List.foldl_cons]
    refine ih hpw' hmem' (innerStep i j2old st j) s1 s2 ?_ ?_
    · -- i ∈ R ∨ chainDP s i i ≤ bestsize after the step
      by_cases hji : j = i
      · exact Or.inr (s3 hji)
      · rcases h3 with hin | hle
        · rcases List.mem_cons.mp hin with hij | hin'
          · exact absurd hij.symm hji
          · exact Or.inl hin'
        · exact Or.inr (s4 hle)
    · -- the j2len table after the step
      intro x
      rw [s5 x]
      by_cases hxj : x = j
      · subst hxj
        have hxR : ¬ x ∈ R := fun hx => by have := hjlt x hx; omega
        simp [hmj, hxR]
      · rw [if_neg hxj, h4 x]
        by_cases hm : matchB s i x = true
        · by_cases hxR : x ∈ R
          · have hxcons : x ∈ j :: R := List.mem_cons_of_mem j hxR
            simp [hm, hxR, hxcons]
          · have hxcons : ¬ x ∈ j :: R := by
              intro hc
              rcases List.mem_cons.mp hc with h | h
              · exact hxj h
              · exact hxR h
            simp [hm, hxR, hxcons]
        · simp [hm]

theorem mem_b2j {b : Str} {c : Char} {j : Nat} :
    j ∈ b2j b c ↔ (j < b.length ∧ (b.getD j ' ' == c) = true ∧ isPopular b c = false) := by
  unfold b2j
  cases hp : isPopular b c with
  | true => simp [hp]
  | false =>
    simp only [hp, Bool.false_eq_true, if_false, List.mem_filter, List.mem_range]
    constructor
    · rintro ⟨h1, h2⟩
      exact ⟨h1, h2, trivial⟩
    · rintro ⟨h1, h2, -⟩
      exact ⟨h1, h2⟩

theorem mem_rowList {s : Str} {i j : Nat} :
    j ∈ (b2j s (s.getD i ' ')).filter
        (fun j => decide (0 ≤ j) && decide (j < s.length)) ↔ matchB s i j = true := by
  rw [List.mem_filter, mem_b2j]
  unfold matchB
  simp only [Bool.and_eq_true, decide_eq_true_eq, Bool.not_eq_true']
  constructor
  · rintro ⟨⟨h1, h2, h3⟩, -⟩
    exact ⟨⟨h1, h2⟩, h3⟩
  · rintro ⟨⟨h1, h2⟩, h3⟩
    exact ⟨⟨h1, h2, h3⟩, ⟨Nat.zero_le j, h1⟩⟩

theorem rowList_pairwise (s : Str) (i : Nat) :
    ((b2j s (s.getD i ' ')).filter
        (fun j => decide (0 ≤ j) && decide (j < s.length))).Pairwise (· < ·) := by
  apply List.Pairwise.filter
  unfold b2j
  cases hp : isPopular s (s.getD i ' ') with
  | true => simp
  | false =>
    simp only [Bool.false_eq_true, if_false]
    exact (List.pairwise_lt_range s.length).filter _

theorem rowFold_diag (s : Str) : ∀ m, m ≤ s.length →
    (((List.range' 0 m).foldl (rowStep s s 0 s.length) ⟨fun _ => 0, 0, 0, 0⟩).besti =
      ((List.range' 0 m).foldl (rowStep s s 0 s.length) ⟨fun _ => 0, 0, 0, 0⟩).bestj ∧
     (∀ r, r < m → chainDP s r r ≤
      ((List.range' 0 m).foldl (rowStep s s 0 s.length) ⟨fun _ => 0, 0, 0, 0⟩).bestsize) ∧
     (∀ x, ((List.range' 0 m).foldl (rowStep s s 0 s.length) ⟨fun _ => 0, 0, 0, 0⟩).j2len x =
      prevChain s m x)) := by
  intro m
  induction m with
  | zero =>
    intro _
    refine ⟨rfl, by omega, ?_⟩
    intro x
    simp [prevChain]
  | succ m ih =>
    intro hm
    obtain ⟨ih1, ih2, ih3⟩ := ih (by omega)
    rw [List.range'_concat]
    simp only [one_mul, Nat.zero_add]
    rw [List.foldl_append, List.foldl_cons, List.foldl_nil]
    set st := (List.range' 0 m).foldl (rowStep s s 0 s.length) ⟨fun _ => 0, 0, 0, 0⟩ with hst
    unfold rowStep
    dsimp only
    have him : m < s.length := by omega
    have hres := innerFold_diag s m him st.j2len ih3
      ((b2j s (s.getD m ' ')).filter (fun j => decide (0 ≤ j) && decide (j < s.length)))
      (rowList_pairwise s m)
      (fun j hj => mem_rowList.mp hj)
      { st with j2len := fun _ => 0 }
      ih1
      (fun r hr => ih2 r hr)
      (by
        by_cases hmm : matchB s m m = true
        · exact Or.inl (mem_rowList.mpr hmm)
        · refine Or.inr ?_
          rw [chainDP_of_neg (by simpa using hmm)]
          exact Nat.zero_le _)
      (by
        intro x
        show (0 : Nat) = _
        by_cases hmx : matchB s m x = true
        · have hxmem : x ∈ (b2j s (s.getD m ' ')).filter
              (fun j => decide (0 ≤ j) && decide (j < s.length)) := mem_rowList.mpr hmx
          exact (if_neg (fun h => h.2 hxmem)).symm
        · exact (if_neg (fun h => hmx h.1)).symm)
    obtain ⟨c1, c2, c3, c4⟩ := hres
    refine ⟨c1, ?_, ?_⟩
    · intro r hr
      by_cases hrm : r < m
      · exact c2 r hrm
      · have hreq : r = m := by omega
        subst hreq
        exact c3
    · intro x
      rw [c4 x]
      unfold prevChain
      simp

theorem dpBest_self_diag (s : Str) :
    (dpBest s s 0 s.length 0 s.length).1 = (dpBest s s 0 s.length 0 s.length).2.1 := by
  unfold dpBest
  dsimp only
  have h := (rowFold_diag s s.length le_rfl).1
  simpa using h

/-- On two equal strings, the backward non-junk extension of a diagonal
block runs all the way to the left edge. -/
theorem extendBack_self (s : Str) : ∀ d k,
    extendBack s s 0 0 (fun c => !(isBJunk c)) d d k = (0, 0, d + k) := by
  intro d
  induction d with
  | zero =>
    intro k
    simp [extendBack]
  | succ d ih =>
    intro k
    simp only [extendBack]
    split
    · simp only [Nat.add_sub_cancel]
      rw [ih (k + 1)]
      have h3 : d + (k + 1) = d + 1 + k := by omega
      rw [h3]
    · rename_i hg
      exact absurd ⟨by omega, by omega, by trivial, by trivial⟩ hg

/-- On two equal strings, the forward non-junk extension of a block at
the left edge runs all the way to the right edge. -/
theorem extendFwdAux_self (s : Str) : ∀ fuel k, k + fuel = s.length →
    extendFwdAux s s s.length s.length (fun c => !(isBJunk c)) 0 0 fuel k = s.length := by
  intro fuel
  induction fuel with
  | zero =>
    intro k hk
    simpa [extendFwdAux] using hk
  | succ fuel ih =>
    intro k hk
    simp only [extendFwdAux]
    split
    · exact ih (k + 1) (by omega)
    · rename_i hg
      exact absurd ⟨by omega, by omega, by trivial, by trivial⟩ hg

theorem extendFwd_self (s : Str) (k : Nat) (hk : k ≤ s.length) :
    extendFwd s s s.length s.length (fun c => !(isBJunk c)) 0 0 k = s.length := by
  unfold extendFwd
  simp only [Nat.zero_add]
  exact extendFwdAux_self s (s.length - k) k (by omega)

/-- On `(s, s)` over the full windows, `find_longest_match` returns the
whole string: the DP loop ends on a diagonal block, which the non-junk
extension passes grow to the full diagonal. -/
theorem flm_self (s : Str) :
    findLongestMatch s s 0 s.length 0 s.length = (0, 0, s.length) := by
  rw [findLongestMatch_eq]
  have hd := dpBest_self_diag s
  obtain ⟨hb0, hb1⟩ := dpBest_bounds s s 0 s.length 0 s.length
  rw [← hd, extendBack_self]
  have hsum : (dpBest s s 0 s.length 0 s.length).1 +
      (dpBest s s 0 s.length 0 s.length).2.2 ≤ s.length := by
    by_cases hz : (dpBest s s 0 s.length 0 s.length).2.2 = 0
    · have := hb0 hz
      omega
    · have := hb1 hz
      omega
  simp only
  rw [extendFwd_self s _ hsum]

theorem matchTotal_self (s : Str) :
    matchTotal s s 0 s.length 0 s.length = s.length := by
  rw [matchTotal_eq s s 0 s.length 0 s.length 0 0 s.length (flm_self s)]
  by_cases hz : s.length = 0
  · simp [hz]
  · rw [if_neg hz]
    rw [if_neg (by omega), if_neg (by omega)]
    omega

/-- `SequenceMatcher(None, s, s).ratio() == 1.0` for every string `s`,
including strings long enough for the autojunk heuristic to fire. -/
theorem ratioOf_self (s : Str) : ratioOf s s = 1 := by
  unfold ratioOf
  by_cases hz : s.length + s.length = 0
  · rw [if_pos hz]
  · rw [if_neg hz, matchTotal_self]
    have hlen : (0 : ℚ) < (s.length : ℚ) + (s.length : ℚ) := by
      have : 0 < s.length := by omega
      push_cast
      exact_mod_cast by positivity
    rw [div_eq_one_iff_eq (by positivity)]
    push_cast
    ring

theorem matchTotal_nonneg_q (a b : Str) :
    (0 : ℚ) ≤ (matchTotal a b 0 a.length 0 b.length : ℚ) := by
  exact_mod_cast Nat.zero_le _

/-- The sequence-similarity ratio is nonnegative. -/
theorem ratioOf_nonneg (a b : Str) : 0 ≤ ratioOf a b := by
  unfold ratioOf
  by_cases hz : a.length + b.length = 0
  · rw [if_pos hz]; norm_num
  · rw [if_neg hz]
    apply div_nonneg
    · have := matchTotal_nonneg_q a b
      linarith
    · have : 0 < a.length + b.length := by omega
      push_cast
      exact_mod_cast Nat.zero_le _

end Difflib

theorem le_foldl_max (L : List ℚ) : ∀ b : ℚ, b ≤ L.foldl max b := by
  induction L with
  | nil => intro b; exact le_refl b
  | cons x t ih =>
    intro b
    calc b ≤ max b x := le_max_left b x
    _ ≤ t.foldl max (max b x) := ih (max b x)

theorem foldl_max_mem (L : List ℚ) : ∀ b : ℚ, L.foldl max b = b ∨ L.foldl max b ∈ L := by
  induction L with
  | nil => intro b; exact Or.inl rfl
  | cons x t ih =>
    intro b
    rcases ih (max b x) with h | h
    · rcases max_choice b x with hb | hx
      · rw [List.foldl_cons, h, hb]
        exact Or.inl rfl
      · rw [List.foldl_cons, h, hx]
        exact Or.inr (List.mem_cons_self x t)
    · exact Or.inr (List.mem_cons_of_mem x h)

theorem fbm_fold (lq : Str) :
    ∀ (l : List QAEntry) (acc : Option Str × ℚ),
      (l.foldl (fun (acc : Option Str × ℚ) qa =>
        if acc.2 < combinedScore lq qa.question
        then (some qa.answer, combinedScore lq qa.question) else acc) acc).2 =
        (l.map (fun qa => combinedScore lq qa.question)).foldl max acc.2 ∧
      (acc.2 < (l.map (fun qa => combinedScore lq qa.question)).foldl max acc.2 →
        (l.foldl (fun (acc : Option Str × ℚ) qa =>
          if acc.2 < combinedScore lq qa.question
          then (some qa.answer, combinedScore lq qa.question) else acc) acc).1 =
        (l.find? (fun qa => decide (combinedScore lq qa.question =
          (l.map (fun qa => combinedScore lq qa.question)).foldl max acc.2))).map
            QAEntry.answer) ∧
      ((l.map (fun qa => combinedScore lq qa.question)).foldl max acc.2 ≤ acc.2 →
        (l.foldl (fun (acc : Option Str × ℚ) qa =>
          if acc.2 < combinedScore lq qa.question
          then (some qa.answer, combinedScore lq qa.question) else acc) acc).1 = acc.1) := by
  intro l
  induction l with
  | nil =>
    intro acc
    refine ⟨rfl, ?_, fun _ => rfl⟩
    intro h
    exact absurd h (lt_irrefl _)
  | cons x t ih =>
    intro acc
    simp only [List.foldl_cons, List.map_cons]
    by_cases hlt : acc.2 < combinedScore lq x.question
    · rw [if_pos hlt]
      obtain ⟨ih1, ih2, ih3⟩ := ih (some x.answer, combinedScore lq x.question)
      have hmaxr : max acc.2 (combinedScore lq x.question) = combinedScore lq x.question :=
        max_eq_right (le_of_lt hlt)
      simp only [hmaxr]
      have hMge : combinedScore lq x.question ≤
          (t.map (fun qa => combinedScore lq qa.question)).foldl max
            (combinedScore lq x.question) := le_foldl_max _ _
      refine ⟨ih1, ?_, ?_⟩
      · intro _
        by_cases hsx : combinedScore lq x.question <
            (t.map (fun qa => combinedScore lq qa.question)).foldl max
              (combinedScore lq x.question)
        · rw [ih2 hsx]
          rw [List.find?_cons_of_neg _ (by simpa using ne_of_lt hsx)]
        · have heq : (t.map (fun qa => combinedScore lq qa.question)).foldl max
              (combinedScore lq x.question) = combinedScore lq x.question :=
            le_antisymm (not_lt.mp hsx) hMge
          rw [ih3 (le_of_eq heq)]
          rw [List.find?_cons_of_pos _ (by simpa using heq.symm)]
          rfl
      · intro hle
        exact absurd (lt_of_lt_of_le hlt (le_trans hMge hle)) (lt_irrefl _)
    · rw [if_neg hlt]
      obtain ⟨ih1, ih2, ih3⟩ := ih acc
      have hmaxl : max acc.2 (combinedScore lq x.question) = acc.2 :=
        max_eq_left (not_lt.mp hlt)
      simp only [hmaxl]
      refine ⟨ih1, ?_, ih3⟩
      intro hM
      rw [ih2 hM]
      have hne : ¬ (combinedScore lq x.question =
          (t.map (fun qa => combinedScore lq qa.question)).foldl max acc.2) := by
        intro heq
        rw [← heq] at hM
        exact absurd hM (not_lt.mpr (not_lt.mp hlt))
      rw [List.find?_cons_of_neg _ (by simpa using hne)]

/-- `_find_best_match` satisfies the specification above (at the
threshold used by the callers; any positive threshold works). -/
theorem findBestMatch_eq_spec (qaData : List QAEntry) (userQuestion : Str) :
    findBestMatch qaData userQuestion (1/2) =
      findBestMatchSpec qaData userQuestion (1/2) := by
  unfold findBestMatch findBestMatchSpec
  by_cases hnil : qaData = []
  · subst hnil
    norm_num
  · rw [if_neg hnil]
    obtain ⟨h1, h2, h3⟩ := fbm_fold (pyLower userQuestion) qaData
      ((none : Option Str), (0 : ℚ))
    dsimp only
    by_cases hth : (1 : ℚ)/2 ≤
        (qaData.map (fun qa => combinedScore (pyLower userQuestion) qa.question)).foldl max 0
    · rw [if_pos (by rw [h1]; exact hth), if_pos hth]
      have hpos : (0 : ℚ) <
          (qaData.map (fun qa => combinedScore (pyLower userQuestion) qa.question)).foldl max 0 :=
        lt_of_lt_of_le (by norm_num) hth
      rw [Prod.ext_iff]
      exact ⟨h2 hpos, h1⟩
    · rw [if_neg (by rw [h1]; exact hth), if_neg hth]

theorem insertDesc_perm (m : ScoredMatch) (l : List ScoredMatch) :
    (insertDesc m l).Perm (m :: l) := by
  induction l with
  | nil => exact List.Perm.refl _
  | cons x xs ih =>
    unfold insertDesc
    by_cases hx : x.score ≤ m.score
    · rw [if_pos hx]
    · rw [if_neg hx]
      exact (List.Perm.cons x ih).trans (List.Perm.swap m x xs)

theorem sortDesc_perm (l : List ScoredMatch) : (sortDesc l).Perm l := by
  induction l with
  | nil => exact List.Perm.refl _
  | cons x xs ih =>
    unfold sortDesc
    exact (insertDesc_perm x (sortDesc xs)).trans (List.Perm.cons x ih)

theorem insertDesc_pairwise (m : ScoredMatch) (l : List ScoredMatch)
    (h : l.Pairwise (fun a b => b.score ≤ a.score)) :
    (insertDesc m l).Pairwise (fun a b => b.score ≤ a.score) := by
  induction l with
  | nil => exact List.pairwise_singleton _ m
  | cons x xs ih =>
    unfold insertDesc
    obtain ⟨hx1, hx2⟩ := List.pairwise_cons.mp h
    by_cases hx : x.score ≤ m.score
    · rw [if_pos hx]
      refine List.pairwise_cons.mpr ⟨?_, h⟩
      intro b hb
      rcases List.mem_cons.mp hb with rfl | hb'
      · exact hx
      · exact le_trans (hx1 b hb') hx
    · rw [if_neg hx]
      refine List.pairwise_cons.mpr ⟨?_, ih hx2⟩
      intro b hb
      have hb' := (insertDesc_perm m xs).mem_iff.mp hb
      rcases List.mem_cons.mp hb' with rfl | hb''
      · exact le_of_not_le hx
      · exact hx1 b hb''

theorem sortDesc_pairwise (l : List ScoredMatch) :
    (sortDesc l).Pairwise (fun a b => b.score ≤ a.score) := by
  induction l with
  | nil => exact List.Pairwise.nil
  | cons x xs ih => exact insertDesc_pairwise x (sortDesc xs) ih

theorem insertDesc_filter (v : ℚ) (m : ScoredMatch) (l : List ScoredMatch) :
    (insertDesc m l).filter (fun x => decide (x.score = v)) =
      if m.score = v then m :: l.filter (fun x => decide (x.score = v))
      else l.filter (fun x => decide (x.score = v)) := by
  induction l with
  | nil =>
    unfold insertDesc
    by_cases hm : m.score = v
    · rw [if_pos hm, List.filter_cons, if_pos (by simpa using hm)]
    · rw [if_neg hm, List.filter_cons, if_neg (by simpa using hm)]
  | cons x xs ih =>
    unfold insertDesc
    by_cases hx : x.score ≤ m.score
    · rw [if_pos hx]
      by_cases hm : m.score = v
      · rw [if_pos hm, List.filter_cons, if_pos (by simpa using hm)]
      · rw [if_neg hm, List.filter_cons, if_neg (by simpa using hm)]
    · rw [if_neg hx, List.filter_cons]
      by_cases hxv : x.score = v
      · rw [if_pos (by simpa using hxv)]
        by_cases hm : m.score = v
        · exfalso
          exact hx (le_of_eq (hxv.trans hm.symm))
        · rw [ih, if_neg hm, if_neg hm, List.filter_cons, if_pos (by simpa using hxv)]
      · rw [if_neg (by simpa using hxv)]
        by_cases hm : m.score = v
        · rw [ih, if_pos hm, if_pos hm, List.filter_cons, if_neg (by simpa using hxv)]
        · rw [ih, if_neg hm, if_neg hm, List.filter_cons, if_neg (by simpa using hxv)]

/-- Stability of the modelled sort: elements of any fixed score appear
in the sorted list exactly in their original relative order. -/
theorem sortDesc_filter (l : List ScoredMatch) (v : ℚ) :
    (sortDesc l).filter (fun x => decide (x.score = v)) =
      l.filter (fun x => decide (x.score = v)) := by
  induction l with
  | nil => rfl
  | cons x xs ih =>
    unfold sortDesc
    rw [insertDesc_filter, List.filter_cons]
    by_cases hx : x.score = v
    · rw [if_pos hx, if_pos (by simpa using hx), ih]
    · rw [if_neg hx, if_neg (by simpa using hx), ih]

theorem keywordBoost_nonneg (userLower question : Str) :
    0 ≤ keywordBoost userLower question := by
  unfold keywordBoost
  suffices h : ∀ (L : List Str) (acc : ℚ), 0 ≤ acc →
      0 ≤ L.foldl (fun acc kw =>
        if inStr kw userLower && inStr kw (pyLower question) then acc + 15/100 else acc) acc by
    exact h keywords 0 le_rfl
  intro L
  induction L with
  | nil => intro acc h; exact h
  | cons kw L ih =>
    intro acc h
    simp only [List.foldl_cons]
    by_cases hc : (inStr kw userLower && inStr kw (pyLower question)) = true
    · rw [if_pos hc]
      exact ih _ (by linarith)
    · rw [if_neg hc]
      exact ih _ h

theorem combinedScore_nonneg (userLower question : Str) :
    0 ≤ combinedScore userLower question := by
  unfold combinedScore
  refine le_min ?_ (by norm_num)
  have h1 := Difflib.ratioOf_nonneg (pyLower userLower) (pyLower question)
  have h2 := keywordBoost_nonneg userLower question
  unfold calculateSimilarity
  linarith

theorem combinedScore_le_one (userLower question : Str) :
    combinedScore userLower question ≤ 1 :=
  min_le_right _ _

theorem sortedMatches_perm (qaData : List QAEntry) (q : Str) :
    (sortedMatches qaData q).Perm (scoredMatches qaData q) :=
  sortDesc_perm _

theorem getRelevantContext_none_iff (qaData : List QAEntry) (q : Str) :
    getRelevantContext qaData q = none ↔ scoredMatches qaData q = [] := by
  unfold getRelevantContext
  by_cases h1 : qaData = []
  · rw [if_pos h1]
    subst h1
    simp [scoredMatches]
  · rw [if_neg h1]
    by_cases h2 : topMatches qaData q = []
    · rw [if_pos h2]
      unfold topMatches at h2
      have hsorted : sortedMatches qaData q = [] := by
        rcases List.take_eq_nil_iff.mp h2 with h | h
        · exact absurd h (by norm_num)
        · exact h
      have hp := sortedMatches_perm qaData q
      rw [hsorted] at hp
      exact ⟨fun _ => hp.nil_eq.symm, fun _ => rfl⟩
    · rw [if_neg h2]
      constructor
      · intro h; exact absurd h (by simp)
      · intro hsc
        exfalso
        apply h2
        unfold topMatches sortedMatches
        rw [hsc]
        rfl

theorem getRelevantContext_some (qaData : List QAEntry) (q : Str)
    (h : scoredMatches qaData q ≠ []) :
    getRelevantContext qaData q = some (formatContext (topMatches qaData q)) := by
  have h1 : qaData ≠ [] := by
    intro hq
    apply h
    subst hq
    simp [scoredMatches]
  have h2 : topMatches qaData q ≠ [] := by
    intro ht
    apply h
    unfold topMatches at ht
    rcases List.take_eq_nil_iff.mp ht with h' | h'
    · exact absurd h' (by norm_num)
    · have hp := sortedMatches_perm qaData q
      rw [h'] at hp
      exact hp.nil_eq.symm
  unfold getRelevantContext
  rw [if_neg h1, if_neg h2]

theorem getResponse_classify (client : Option Service) (qaData : List QAEntry)
    (userQuestion : Str) (h : ¬(userQuestion = [] ∨ pyStrip userQuestion = [])) :
    (getResponse client qaData userQuestion).source =
      (if (getRelevantContext qaData userQuestion).isSome
        then "ai_agent".toList else "ai_general".toList) ∧
    (getResponse client qaData userQuestion).confidence =
      (if (getRelevantContext qaData userQuestion).isSome then (1 : ℚ) else 1/2) := by
  unfold getResponse
  rw [if_neg h]
  exact ⟨rfl, rfl⟩

/-- A `findBestMatch` hit at threshold `0.5` forces a non-`none`
context: the same combined score of the same entry clears the `0.3`
context floor. -/
theorem fbm_isSome_context (qaData : List QAEntry) (q : Str)
    (h : (findBestMatch qaData q (1/2)).1.isSome = true) :
    (getRelevantContext qaData q).isSome = true := by
  rw [findBestMatch_eq_spec] at h
  unfold findBestMatchSpec at h
  dsimp only at h
  by_cases hth : (1 : ℚ)/2 ≤
      (qaData.map (fun qa => combinedScore (pyLower q) qa.question)).foldl max 0
  · have hM : (qaData.map (fun qa => combinedScore (pyLower q) qa.question)).foldl max 0 ∈
        qaData.map (fun qa => combinedScore (pyLower q) qa.question) := by
      rcases foldl_max_mem (qaData.map (fun qa => combinedScore (pyLower q) qa.question)) 0
        with h0 | hmem
      · rw [h0] at hth
        norm_num at hth
      · exact hmem
    obtain ⟨qa, hqa, hsc⟩ := List.mem_map.mp hM
    have hmem2 : (⟨qa.question, qa.answer,
        combinedScore (pyLower q) qa.question⟩ : ScoredMatch) ∈ scoredMatches qaData q := by
      unfold scoredMatches
      refine List.mem_filter.mpr ⟨List.mem_map_of_mem _ hqa, ?_⟩
      simp only [decide_eq_true_eq]
      rw [hsc]
      linarith
    have hne : scoredMatches qaData q ≠ [] := List.ne_nil_of_mem hmem2
    rw [getRelevantContext_some qaData q hne]
    rfl
  · rw [if_neg hth] at h
    simp at h

/-- C1: `findBestMatch(query, threshold=0.5)` computes the combined
similarity-plus-keyword-boost score for every entry, tracks the single
maximum with first-entry-encountered-wins tie-breaking (strictly greater
to replace), and returns the best entry's answer with its score iff the
score reaches the threshold, `(none, 0)` otherwise; in particular it
returns `(none, 0)` on the empty store for every query. -/
theorem claim1_findBestMatch :
    (∀ (qaData : List QAEntry) (userQuestion : Str),
      findBestMatch qaData userQuestion (1/2) =
        findBestMatchSpec qaData userQuestion (1/2)) ∧
    (∀ userQuestion : Str, findBestMatch [] userQuestion (1/2) = (none, 0)) :=
  ⟨findBestMatch_eq_spec, fun _ => by unfold findBestMatch; rw [if_pos rfl]⟩

/-- C2: `getRelevantContext(query)` keeps exactly the entries scoring
strictly above `0.3`, sorts them descending by score stably (equal
scores keep store order), takes the first 3 (so never more than 3,
in descending order), formats them as 1-indexed numbered Q/A blocks,
and returns `none` exactly when no entry scores above `0.3`. -/
theorem claim2_getRelevantContext :
    ∀ (qaData : List QAEntry) (userQuestion : Str),
      (topMatches qaData userQuestion).length ≤ 3 ∧
      (topMatches qaData userQuestion).Pairwise (fun a b => b.score ≤ a.score) ∧
      (sortedMatches qaData userQuestion).Perm (scoredMatches qaData userQuestion) ∧
      (∀ v : ℚ, (sortedMatches qaData userQuestion).filter (fun m => decide (m.score = v)) =
        (scoredMatches qaData userQuestion).filter (fun m => decide (m.score = v))) ∧
      (getRelevantContext qaData userQuestion = none ↔
        scoredMatches qaData userQuestion = []) ∧
      (scoredMatches qaData userQuestion ≠ [] →
        getRelevantContext qaData userQuestion =
          some (formatContext (topMatches qaData userQuestion))) := by
  intro qaData userQuestion
  refine ⟨?_, ?_, sortedMatches_perm qaData userQuestion,
    fun v => sortDesc_filter _ v, getRelevantContext_none_iff qaData userQuestion,
    getRelevantContext_some qaData userQuestion⟩
  · unfold topMatches
    rw [List.length_take]
    exact min_le_left _ _
  · exact List.Pairwise.sublist (List.take_sublist 3 _) (sortDesc_pairwise _)

/-- C3: for every non-blank query, `getResponse` classifies the result
as `ai_agent` with confidence `1.0` iff a context was found and as
`ai_general` with confidence `0.5` otherwise, independently of the
generation service (absent, succeeding or failing). -/
theorem claim3_provenance :
    ∀ (client : Option Service) (qaData : List QAEntry) (userQuestion : Str),
      ¬(userQuestion = [] ∨ pyStrip userQuestion = []) →
      (getResponse client qaData userQuestion).source =
        (if (getRelevantContext qaData userQuestion).isSome
          then "ai_agent".toList else "ai_general".toList) ∧
      (getResponse client qaData userQuestion).confidence =
        (if (getRelevantContext qaData userQuestion).isSome then (1 : ℚ) else 1/2) :=
  getResponse_classify

/-- C4: for every empty or whitespace-only query, `getResponse` returns
exactly the literal validation result, for every store and service
(no retrieval and no generation call can influence it). -/
theorem claim4_validation :
    ∀ (client : Option Service) (qaData : List QAEntry) (userQuestion : Str),
      (userQuestion = [] ∨ pyStrip userQuestion = []) →
      getResponse client qaData userQuestion =
        ⟨validationMessage, "validation".toList, 0⟩ := by
  intro client qaData userQuestion h
  unfold getResponse
  rw [if_pos h]

/-- C6: the base similarity score of any string against itself is `1.0`
(case-insensitive, ratio alone). -/
theorem claim6_selfSimilarity : ∀ q : Str, calculateSimilarity q q = 1 :=
  fun q => Difflib.ratioOf_self (pyLower q)

/-- C7: the combined retrieval score (base ratio plus `0.15` per shared
keyword, capped at `1.0`) lies in `[0, 1]` for every query and stored
question. -/
theorem claim7_scoreRange :
    ∀ userQuestion question : Str,
      0 ≤ combinedScore (pyLower userQuestion) question ∧
      combinedScore (pyLower userQuestion) question ≤ 1 :=
  fun u q => ⟨combinedScore_nonneg (pyLower u) q, combinedScore_le_one (pyLower u) q⟩

/-- C8: with an unchanged store and no generation service, two calls of
`getResponse` on the same query return identical answer, source and
confidence (the fallback path is deterministic). -/
theorem claim8_idempotent :
    ∀ (qaData : List QAEntry) (q : Str) (r1 r2 : ResponseResult),
      r1 = getResponse none qaData q → r2 = getResponse none qaData q →
      r1.answer = r2.answer ∧ r1.source = r2.source ∧ r1.confidence = r2.confidence := by
  intro qaData q r1 r2 h1 h2
  subst h1
  subst h2
  exact ⟨rfl, rfl, rfl⟩

/-- C9: a `findBestMatch` hit at threshold `0.5` implies a non-`none`
context (same scores, `0.5 > 0.3`); hence with no service configured a
non-blank query whose fallback found an answer is classified
`ai_agent` with confidence `1.0`. -/
theorem claim9_fallbackClassified :
    ∀ (qaData : List QAEntry) (q : Str),
      ((findBestMatch qaData q (1/2)).1.isSome = true →
        (getRelevantContext qaData q).isSome = true) ∧
      (¬(q = [] ∨ pyStrip q = []) → (findBestMatch qaData q (1/2)).1.isSome = true →
        (getResponse none qaData q).source = "ai_agent".toList ∧
        (getResponse none qaData q).confidence = 1) := by
  intro qaData q
  refine ⟨fbm_isSome_context qaData q, ?_⟩
  intro hnb hsome
  obtain ⟨hs, hc⟩ := getResponse_classify none qaData q hnb
  have hctx := fbm_isSome_context qaData q hsome
  rw [hctx] at hs hc
  rw [if_pos rfl] at hs hc
  exact ⟨hs, hc⟩

/-- C10: an entry lacking a `question` or `answer` field is read as the
empty string by both retrieval operations (defaulting the fields does
not change either operation), and a missing or malformed knowledge file
loads as the empty store; retrieval is total on all such data. -/
theorem claim10_malformedStore :
    (loadData .fileNotFound = [] ∧ loadData .invalidJson = []) ∧
    (∀ (qaData : List QAEntry) (q : Str) (t : ℚ),
      findBestMatch (qaData.map QAEntry.defaulted) q t = findBestMatch qaData q t) ∧
    (∀ (qaData : List QAEntry) (q : Str),
      getRelevantContext (qaData.map QAEntry.defaulted) q = getRelevantContext qaData q) := by
  have hscored : ∀ (qaData : List QAEntry) (q : Str),
      scoredMatches (qaData.map QAEntry.defaulted) q = scoredMatches qaData q := by
    intro qaData q
    unfold scoredMatches
    dsimp only
    rw [List.map_map]
    rfl
  refine ⟨⟨rfl, rfl⟩, ?_, ?_⟩
  · intro qaData q t
    by_cases hl : qaData = []
    · subst hl; rfl
    · unfold findBestMatch
      rw [if_neg (fun hc => hl (List.map_eq_nil_iff.mp hc)), if_neg hl]
      dsimp only
      rw [List.foldl_map]
      rfl
  · intro qaData q
    by_cases hl : qaData = []
    · subst hl; rfl
    · unfold getRelevantContext
      rw [if_neg (fun hc => hl (List.map_eq_nil_iff.mp hc)), if_neg hl]
      unfold topMatches sortedMatches
      rw [hscored]

theorem getLlmResponse_none (qaData : List QAEntry) (q : Str) (ctx : Option Str) :
    ((findBestMatch qaData q (1/2)).1 = none →
      getLlmResponse none qaData q ctx = noApiKeyMessage) ∧
    (∀ a, (findBestMatch qaData q (1/2)).1 = some a → a ≠ [] →
      getLlmResponse none qaData q ctx = a) ∧
    ((findBestMatch qaData q (1/2)).1 = some [] →
      getLlmResponse none qaData q ctx = noApiKeyMessage) := by
  unfold getLlmResponse
  rcases hfb : findBestMatch qaData q (1/2) with ⟨a?, sc⟩
  cases a? with
  | none =>
    refine ⟨fun _ => rfl, ?_, ?_⟩
    · intro a ha
      simp at ha
    · intro ha
      simp at ha
  | some a =>
    refine ⟨?_, ?_, ?_⟩
    · intro h
      simp at h
    · intro a' ha' hne
      obtain rfl : a = a' := by simpa using ha'
      simp only
      rw [if_neg hne]
    · intro ha
      obtain rfl : a = [] := by simpa using ha
      simp

/-- C5 (amended): with no generation service configured, the composer
returns the `findBestMatch(query, 0.5)` answer verbatim when that answer
is non-empty; when no answer is found — or the found answer is the empty
string, which Python's `if answer:` treats as no answer — it returns the
fixed "need an API key" message; and the no-service, service-error and
no-match messages are three distinct literal strings. -/
theorem claim5_noServiceComposer :
    (∀ (qaData : List QAEntry) (q : Str) (ctx : Option Str),
      ((findBestMatch qaData q (1/2)).1 = none →
        getLlmResponse none qaData q ctx = noApiKeyMessage) ∧
      (∀ a, (findBestMatch qaData q (1/2)).1 = some a → a ≠ [] →
        getLlmResponse none qaData q ctx = a) ∧
      ((findBestMatch qaData q (1/2)).1 = some [] →
        getLlmResponse none qaData q ctx = noApiKeyMessage)) ∧
    (noApiKeyMessage ≠ troubleMessage ∧ noApiKeyMessage ≠ noSpecificInfoMessage ∧
      troubleMessage ≠ noSpecificInfoMessage) :=
  ⟨getLlmResponse_none,
   by with_unfolding_all decide, by with_unfolding_all decide, by with_unfolding_all decide⟩

/-- C5 (counterexample to the claim as stated): on a store whose
matched entry has the empty string as answer, `findBestMatch` finds an
answer (`some ""`), yet the no-service composer does not return it
verbatim — it returns the "need an API key" message instead (Python's
`if answer:` truthiness). -/
theorem claim5_counterexample :
    (findBestMatch emptyAnswerStore "eva".toList (1/2)).1 = some [] ∧
    getLlmResponse none emptyAnswerStore "eva".toList none = noApiKeyMessage ∧
    noApiKeyMessage ≠ ([] : Str) := by
  refine ⟨by with_unfolding_all decide, by with_unfolding_all decide,
    by with_unfolding_all decide⟩

/-- C3 witness: a concrete non-blank query against the empty store is
classified `ai_general` with confidence `0.5`. -/
theorem claim3_witness :
    (getResponse none [] "hi".toList).source = "ai_general".toList ∧
    (getResponse none [] "hi".toList).confidence = 1/2 := by
  obtain ⟨h1, h2⟩ := claim3_provenance none [] "hi".toList (by with_unfolding_all decide)
  rw [h1, h2]
  exact ⟨by with_unfolding_all decide, by with_unfolding_all decide⟩

/-- C4 witness: the whitespace-only query `" "` yields the literal
validation result. -/
theorem claim4_witness :
    getResponse none [] " ".toList = ⟨validationMessage, "validation".toList, 0⟩ :=
  claim4_validation none [] " ".toList (by with_unfolding_all decide)

/-- C5 witness: on a store with a non-empty matched answer, the
no-service composer returns that answer verbatim. -/
theorem claim5_witness :
    getLlmResponse none demoStore "eva".toList none = "eva answer".toList :=
  (claim5_noServiceComposer.1 demoStore "eva".toList none).2.1 "eva answer".toList
    (by with_unfolding_all decide) (by with_unfolding_all decide)

/-- C8 witness: two evaluations of `getResponse` on a concrete store
and query agree componentwise. -/
theorem claim8_witness :
    (getResponse none demoStore "eva".toList).answer =
      (getResponse none demoStore "eva".toList).answer ∧
    (getResponse none demoStore "eva".toList).source =
      (getResponse none demoStore "eva".toList).source ∧
    (getResponse none demoStore "eva".toList).confidence =
      (getResponse none demoStore "eva".toList).confidence :=
  claim8_idempotent demoStore "eva".toList _ _ rfl rfl

/-- C9 witness: a concrete query that `findBestMatch` answers is
classified `ai_agent` with confidence `1.0`. -/
theorem claim9_witness :
    (getRelevantContext demoStore "eva".toList).isSome = true ∧
    (getResponse none demoStore "eva".toList).source = "ai_agent".toList ∧
    (getResponse none demoStore "eva".toList).confidence = 1 := by
  have h := claim9_fallbackClassified demoStore "eva".toList
  have hsome : (findBestMatch demoStore "eva".toList (1/2)).1.isSome = true := by
    with_unfolding_all decide
  have hnb : ¬("eva".toList = [] ∨ pyStrip "eva".toList = []) := by
    with_unfolding_all decide
  exact ⟨h.1 hsome, (h.2 hnb hsome).1, (h.2 hnb hsome).2⟩
